import Mathlib

set_option maxRecDepth 10000

/-!
Shallow embedding of the resume field-extraction engine (src/app.py):
phone candidate discovery (`clean_phone`, `find_all_phones`, `best_phone`),
name extraction (`extract_fio_from_text`) and desired-position extraction
(`extract_position_from_text`).  Strings are modelled as `List Char`;
each Python regular expression is hand-compiled to an executable matcher
with the same backtracking semantics (documented next to it).
-/

namespace CvApp

/-- Convert a Lean string literal to the `List Char` model. -/
def pyStr (s : String) : List Char := s.data

/-- Python `\s` on the inputs in scope: ASCII whitespace
(space, tab, newline, carriage return, vertical tab, form feed). -/
def isPySpace (c : Char) : Bool :=
  c == ' ' || c == '\t' || c == '\n' || c == '\r' || c == '\x0b' || c == '\x0c'

/-- Python `\d` (ASCII digits for the inputs in scope). -/
def isDigit (c : Char) : Bool := '0' ≤ c && c ≤ '9'

/-- Cyrillic basic block letters plus the Ukrainian letters used by app.py. -/
def isCyrLetter (c : Char) : Bool :=
  ('А' ≤ c && c ≤ 'я') || c == 'Ё' || c == 'ё' || c == 'І' || c == 'і' ||
  c == 'Ї' || c == 'ї' || c == 'Є' || c == 'є' || c == 'Ґ' || c == 'ґ'

/-- Python `\w` (word character) on the alphabets in scope:
ASCII letters/digits, underscore, Cyrillic letters. -/
def isWordChar (c : Char) : Bool :=
  isDigit c || ('a' ≤ c && c ≤ 'z') || ('A' ≤ c && c ≤ 'Z') || c == '_' || isCyrLetter c

/-- Python `str.lower` restricted to the alphabets used by app.py. -/
def pyLower (c : Char) : Char :=
  if 'A' ≤ c && c ≤ 'Z' then Char.ofNat (c.toNat + 32)
  else if 'А' ≤ c && c ≤ 'Я' then Char.ofNat (c.toNat + 32)
  else if c = 'Ё' then 'ё'
  else if c = 'І' then 'і'
  else if c = 'Ї' then 'ї'
  else if c = 'Є' then 'є'
  else if c = 'Ґ' then 'ґ'
  else c

/-- Does `p` occur at the start of `s`? (`str.startswith`). -/
def startsWithList : List Char → List Char → Bool
  | [], _ => true
  | _ :: _, [] => false
  | p :: ps, c :: cs => p == c && startsWithList ps cs

/-- Does `p` occur as a contiguous substring of `s`? (Python `p in s`). -/
def containsSub (p : List Char) : List Char → Bool
  | [] => p.isEmpty
  | c :: cs => startsWithList p (c :: cs) || containsSub p cs

/-- Index of the first occurrence of `p` as a substring of `s`, if any. -/
def firstOccIdx (p : List Char) : List Char → Option Nat
  | [] => if p.isEmpty then some 0 else none
  | c :: cs =>
    if startsWithList p (c :: cs) then some 0
    else (firstOccIdx p cs).map (· + 1)

/-- Left-to-right whitespace-run collapsing, one pass with a
"previous emitted char was the collapsed space" flag.  `collapseWsAux false`
is Python `re.sub(r"\s+", " ", text)`: every maximal whitespace run becomes
a single space. -/
def collapseWsAux (prevSpace : Bool) : List Char → List Char
  | [] => []
  | c :: rest =>
    if isPySpace c then
      if prevSpace then collapseWsAux true rest
      else ' ' :: collapseWsAux true rest
    else c :: collapseWsAux false rest

/-- Python `re.sub(r"\s+", " ", text)`. -/
def collapseWs (s : List Char) : List Char := collapseWsAux false s

/-- Remove the longest all-whitespace suffix. -/
def pyStripRight : List Char → List Char
  | [] => []
  | c :: rest =>
    match pyStripRight rest with
    | [] => if isPySpace c then [] else [c]
    | r => c :: r

/-- Python `str.strip()`: drop whitespace from both ends. -/
def pyStrip (s : List Char) : List Char := pyStripRight (s.dropWhile isPySpace)

/-- Python `text.split("\n")`. -/
def splitNl : List Char → List (List Char)
  | [] => [[]]
  | c :: rest =>
    if c = '\n' then [] :: splitNl rest
    else
      match splitNl rest with
      | [] => [[c]]
      | h :: t => (c :: h) :: t

/-- Python `str.split()` with no argument: split on whitespace runs,
dropping empty pieces. -/
def pyWords : List Char → List (List Char)
  | [] => []
  | c :: rest =>
    if isPySpace c then pyWords rest
    else
      match pyWords rest with
      | [] => [[c]]
      | w :: ws =>
        match rest with
        | [] => [[c]]
        | c2 :: _ => if isPySpace c2 then [c] :: w :: ws else (c :: w) :: ws

/-- Join a list of words with single spaces (Python `" ".join(words)`). -/
def joinSpace : List (List Char) → List Char
  | [] => []
  | [w] => w
  | w :: ws => w ++ ' ' :: joinSpace ws

/-- Number of digit characters in a string
(Python `sum(c.isdigit() for c in line)`). -/
def digitCount (s : List Char) : Nat := (s.filter isDigit).length

/-- Remove a trailing run of characters satisfying `p`
(Python `re.sub(r"[...]+$", "", s)` for a character class). -/
def stripTrailRun (p : Char → Bool) (s : List Char) : List Char :=
  ((s.reverse.dropWhile p)).reverse

/-- Python `re.sub(r"\s+\d{6,}$", "", s)`: if the string ends in a digit run
of length at least 6 that is preceded by at least one whitespace character,
remove the digit run together with the whitespace run before it. -/
def stripTrailId (s : List Char) : List Char :=
  let r := s.reverse
  let ds := r.takeWhile isDigit
  if 6 ≤ ds.length then
    let r2 := r.drop ds.length
    let sp := r2.takeWhile isPySpace
    if sp.isEmpty then s else (r2.drop sp.length).reverse
  else s

-- ---------- Phone extractor ----------

/-- Python `clean_phone` step 2, `re.sub(r"\+\+*", "+", digits)`:
collapse runs of `+` to a single `+`. -/
def collapsePlusAux (prevPlus : Bool) : List Char → List Char
  | [] => []
  | c :: rest =>
    if c = '+' then
      if prevPlus then collapsePlusAux true rest
      else '+' :: collapsePlusAux true rest
    else c :: collapsePlusAux false rest

/-- Python `clean_phone` step 3: if a `+` occurs after the first character,
keep the first character and delete every `+` from the rest. -/
def removeInnerPlus : List Char → List Char
  | [] => []
  | c :: rest =>
    if '+' ∈ rest then c :: rest.filter (fun d => d ≠ '+')
    else c :: rest

/-- The character class kept by `clean_phone` step 1,
`re.sub(r"[^\d+]", "", s)`. -/
def isPhoneChar (c : Char) : Bool := isDigit c || c = '+'

/-- Python `clean_phone`, the `digits` variable after the three cleaning
steps (keep digits and `+`, collapse `+` runs, drop non-leading `+`). -/
def phoneDigitsOf (s : List Char) : List Char :=
  removeInnerPlus (collapsePlusAux false (s.filter isPhoneChar))

/-- Python `clean_phone`, the `core` variable: the pure-digit core. -/
def phoneCoreOf (s : List Char) : List Char := (phoneDigitsOf s).filter isDigit

/-- Embedding of `clean_phone` (src/app.py lines 9-34): keep digits and `+`,
normalize `+` to at most one leading occurrence, then apply the
length/prefix precedence rules on the pure-digit core. -/
def clean_phone (s : List Char) : Option (List Char) :=
  if (phoneCoreOf s).length = 10 ∧ (phoneCoreOf s).take 1 = ['0'] then
    some (phoneCoreOf s)
  else if (phoneCoreOf s).length = 12 ∧ (phoneCoreOf s).take 3 = ['3', '8', '0'] then
    some ('+' :: phoneCoreOf s)
  else if (phoneCoreOf s).length = 9 then some ('0' :: phoneCoreOf s)
  else if 9 ≤ (phoneCoreOf s).length ∧ (phoneCoreOf s).length ≤ 13 then
    some (phoneDigitsOf s)
  else none

/-- The separator class `[\s\-\(\)\.]` of the phone patterns. -/
def isSepChar (c : Char) : Bool :=
  isPySpace c || c == '-' || c == '(' || c == ')' || c == '.'

/-- Match `[\s\-\(\)\.]*\d` at the start of `s`.  The class excludes digits,
so the greedy `*` deterministically consumes the maximal separator run and
then requires a digit. -/
def sepThenDigit (s : List Char) : Option (List Char × List Char) :=
  let seps := s.takeWhile isSepChar
  match s.drop seps.length with
  | [] => none
  | c :: rest => if isDigit c then some (seps ++ [c], rest) else none

/-- Match `([\s\-\(\)\.]*\d){n}` at the start of `s`. -/
def sepDigits : Nat → List Char → Option (List Char × List Char)
  | 0, s => some ([], s)
  | n + 1, s =>
    match sepThenDigit s with
    | none => none
    | some (m, rest) =>
      match sepDigits n rest with
      | none => none
      | some (m2, rest2) => some (m ++ m2, rest2)

/-- Match an exact literal at the start of `s`, returning the rest. -/
def litAt (lit : List Char) (s : List Char) : Option (List Char) :=
  match lit, s with
  | [], rest => some rest
  | _ :: _, [] => none
  | l :: ls, c :: cs => if l = c then litAt ls cs else none

/-- Match exactly `n` digit characters at the start of `s`. -/
def digitsN : Nat → List Char → Option (List Char × List Char)
  | 0, s => some ([], s)
  | n + 1, s =>
    match s with
    | [] => none
    | c :: rest =>
      if isDigit c then
        match digitsN n rest with
        | none => none
        | some (m, rest2) => some (c :: m, rest2)
      else none

/-- Word-boundary test `\b` immediately before a word character:
holds iff the previous character is absent or not a word character. -/
def boundaryBefore (prevWord : Bool) : Bool := !prevWord

/-- Trailing `\b` after a word character: the next character is absent
or not a word character. -/
def boundaryAfter : List Char → Bool
  | [] => true
  | c :: _ => !(isWordChar c)

/-- A phone pattern matcher: given whether the previous character was a
word character and the remaining text, return the matched substring, the
word-character status of the last matched character, and the rest. -/
abbrev PhonePat := Bool → List Char → Option (List Char × Bool × List Char)

/-- Pattern `\+\s?380([\s\-\(\)\.]*\d){9}`: the greedy `\s?` first tries to
consume one whitespace character before the literal `380`. -/
def patPlus380 : PhonePat := fun _ s =>
  match s with
  | '+' :: rest =>
    let afterSp :=
      match rest with
      | c :: rest2 =>
        if isPySpace c then
          match litAt (pyStr "380") rest2 with
          | some r => some ([c, '3', '8', '0'], r)
          | none =>
            match litAt (pyStr "380") rest with
            | some r => some ([('3' : Char), '8', '0'], r)
            | none => none
        else
          match litAt (pyStr "380") rest with
          | some r => some ([('3' : Char), '8', '0'], r)
          | none => none
      | [] => none
    match afterSp with
    | none => none
    | some (pre, r) =>
      match sepDigits 9 r with
      | none => none
      | some (m, rest2) => some ('+' :: pre ++ m, true, rest2)
  | _ => none

/-- Pattern `\b380([\s\-\(\)\.]*\d){9}`. -/
def pat380 : PhonePat := fun prevWord s =>
  if boundaryBefore prevWord then
    match litAt (pyStr "380") s with
    | none => none
    | some r =>
      match sepDigits 9 r with
      | none => none
      | some (m, rest) => some ('3' :: '8' :: '0' :: m, true, rest)
  else none

/-- Pattern `\b0([\s\-\(\)\.]*\d){9}`. -/
def patZero : PhonePat := fun prevWord s =>
  if boundaryBefore prevWord then
    match s with
    | '0' :: r =>
      match sepDigits 9 r with
      | none => none
      | some (m, rest) => some ('0' :: m, true, rest)
    | _ => none
  else none

/-- Pattern `\b\d([\s\-\(\)\.]*\d){9}` (any 10 digits with separators). -/
def patTenSep : PhonePat := fun prevWord s =>
  if boundaryBefore prevWord then
    match s with
    | c :: r =>
      if isDigit c then
        match sepDigits 9 r with
        | none => none
        | some (m, rest) => some (c :: m, true, rest)
      else none
    | [] => none
  else none

/-- Pattern `\b\d{10}\b`. -/
def patTen : PhonePat := fun prevWord s =>
  if boundaryBefore prevWord then
    match digitsN 10 s with
    | none => none
    | some (m, rest) => if boundaryAfter rest then some (m, true, rest) else none
  else none

/-- Pattern `\b\d{9}\b`. -/
def patNine : PhonePat := fun prevWord s =>
  if boundaryBefore prevWord then
    match digitsN 9 s with
    | none => none
    | some (m, rest) => if boundaryAfter rest then some (m, true, rest) else none
  else none

/-- Fuel-driven scan implementing `re.finditer`: at each position try the
matcher; on success emit the match and resume after it (non-overlapping),
otherwise advance one character.  Fuel `s.length` suffices because every
match consumes at least one character. -/
def finditerAux (pat : PhonePat) : Nat → Bool → List Char → List (List Char)
  | 0, _, _ => []
  | _ + 1, _, [] => []
  | fuel + 1, prevWord, c :: rest =>
    match pat prevWord (c :: rest) with
    | some (m, lastWord, rest2) => m :: finditerAux pat fuel lastWord rest2
    | none => finditerAux pat fuel (isWordChar c) rest

/-- All matches of a phone pattern over `s`, leftmost, non-overlapping. -/
def finditer (pat : PhonePat) (s : List Char) : List (List Char) :=
  finditerAux pat s.length false s

/-- The per-match body of the `find_all_phones` loop (src/app.py lines
60-80): normalize, deduplicate by value, and drop date-like, repeated-digit
and over-long candidates. -/
def processMatch (cands : List (List Char)) (raw : List Char) : List (List Char) :=
  match clean_phone raw with
  | none => cands
  | some phone =>
    if phone ∈ cands then cands
    else
      let digitsOnly := phone.filter isDigit
      if digitsOnly.length = 8 ∧
          (digitsOnly.take 2 = ['1', '9'] ∨ digitsOnly.take 2 = ['2', '0']) then cands
      else if digitsOnly ≠ [] ∧ digitsOnly.all (fun c => c == digitsOnly.headD '0') then cands
      else if 13 < digitsOnly.length then cands
      else cands ++ [phone]

/-- Run one pattern over the text, feeding every match through
`processMatch`. -/
def runPattern (t : List Char) (cands : List (List Char)) (pat : PhonePat) :
    List (List Char) :=
  (finditer pat t).foldl processMatch cands

/-- The fixed, ordered pattern list of `find_all_phones`. -/
def phonePatterns : List PhonePat :=
  [patPlus380, pat380, patZero, patTenSep, patTen, patNine]

/-- Embedding of `find_all_phones` (src/app.py lines 37-82). -/
def find_all_phones (text : List Char) : List (List Char) :=
  let t := collapseWs text
  phonePatterns.foldl (runPattern t) []

/-- Embedding of `best_phone` (src/app.py lines 85-94). -/
def best_phone (text : List Char) : Option (List Char) :=
  let phones := find_all_phones text
  let priority := phones.filter
    (fun p => startsWithList (pyStr "+380") p || startsWithList (pyStr "0") p)
  match priority with
  | p :: _ => some p
  | [] => phones.head?

-- ---------- Name extractor ----------

/-- Shape of `\d{2}\.\d{2}\.\d{4}` as an exact 10-character block. -/
def dateShape : List Char → Bool
  | [a, b, c, d, e, f, g, h, i, j] =>
    isDigit a && isDigit b && c == '.' && isDigit d && isDigit e && f == '.' &&
    isDigit g && isDigit h && isDigit i && isDigit j
  | _ => false

/-- Shape of `(199|200|201|202)\d` as an exact 4-character block. -/
def yearShape : List Char → Bool
  | [a, b, c, d] =>
    ((a == '1' && b == '9' && c == '9') ||
     (a == '2' && b == '0' && (c == '0' || c == '1' || c == '2'))) && isDigit d
  | _ => false

/-- A fixed-width pattern with `\b` on both sides matches at the start of
`s`: the first `n` characters satisfy `shape` and a word boundary follows. -/
def matchAtGen (n : Nat) (shape : List Char → Bool) (s : List Char) : Bool :=
  shape (s.take n) && boundaryAfter (s.drop n)

/-- Scan `s` for a `\b…\b` fixed-width match, tracking whether the previous
character was a word character (for the leading boundary). -/
def scanGen (n : Nat) (shape : List Char → Bool) : Bool → List Char → Bool
  | _, [] => false
  | prevWord, c :: rest =>
    (!prevWord && matchAtGen n shape (c :: rest)) || scanGen n shape (isWordChar c) rest

/-- Embedding of `re.search(r"\b\d{2}\.\d{2}\.\d{4}\b|\b(199|200|201|202)\d\b", line)`
(date or bare year 1990-2029, src/app.py line 202). -/
def dateYearTest (line : List Char) : Bool :=
  scanGen 10 dateShape false line || scanGen 4 yearShape false line

/-- Embedding of `re.search(r"@|https?://|www\.", line)` (src/app.py line 194). -/
def emailUrlTest (line : List Char) : Bool :=
  containsSub (pyStr "@") line || containsSub (pyStr "http://") line ||
  containsSub (pyStr "https://") line || containsSub (pyStr "www.") line

/-- Embedding of `re.search(r"\.(com|ru|ua|org|net|gov)", line)` (src/app.py line 198). -/
def domainTest (line : List Char) : Bool :=
  containsSub (pyStr ".com") line || containsSub (pyStr ".ru") line ||
  containsSub (pyStr ".ua") line || containsSub (pyStr ".org") line ||
  containsSub (pyStr ".net") line || containsSub (pyStr ".gov") line

/-- The `stop_words` list of `extract_fio_from_text` (src/app.py lines 167-178). -/
def fioStopWords : List (List Char) :=
  [pyStr "резюме", pyStr "curriculum", pyStr "vitae",
   pyStr "email", pyStr "www", pyStr "http", pyStr "https",
   pyStr "розглядає", pyStr "рассматривает",
   pyStr "январ", pyStr "феврал", pyStr "март", pyStr "апрел", pyStr "май",
   pyStr "июн", pyStr "июл", pyStr "август", pyStr "сентябр", pyStr "октябр",
   pyStr "ноябр", pyStr "декабр",
   pyStr "січня", pyStr "лютого", pyStr "березня", pyStr "квітня",
   pyStr "травня", pyStr "червня", pyStr "липня", pyStr "серпня",
   pyStr "вересня", pyStr "жовтня", pyStr "листопада", pyStr "грудня",
   pyStr "january", pyStr "february", pyStr "march", pyStr "april",
   pyStr "may", pyStr "june", pyStr "july", pyStr "august",
   pyStr "september", pyStr "october", pyStr "november", pyStr "december",
   pyStr "понедельник", pyStr "вторник", pyStr "среда", pyStr "четверг",
   pyStr "пятница", pyStr "суббота", pyStr "воскресенье",
   pyStr "понеділок", pyStr "вівторок", pyStr "середа", pyStr "четвер",
   pyStr "п\x27ятниця", pyStr "субота", pyStr "неділя",
   pyStr "university", pyStr "університет", pyStr "інститут", pyStr "institute",
   pyStr "академія", pyStr "academy", pyStr "школа", pyStr "school",
   pyStr "освіта", pyStr "образование", pyStr "education", pyStr "досвід",
   pyStr "опыт", pyStr "experience"]

/-- The `position_words` list of `extract_fio_from_text` (src/app.py lines 181-185). -/
def fioPositionWords : List (List Char) :=
  [pyStr "менеджер", pyStr "manager", pyStr "адміністратор", pyStr "administrator",
   pyStr "продавець", pyStr "продавец",
   pyStr "консультант", pyStr "спеціаліст", pyStr "специалист", pyStr "specialist",
   pyStr "помічник", pyStr "помощник",
   pyStr "оператор", pyStr "operator", pyStr "директор", pyStr "director",
   pyStr "координатор", pyStr "рекрутер", pyStr "recruiter"]

/-- Uppercase letter class `[А-ЯЁІЇЄҐA-Z]` of the FIO patterns. -/
def isUpperFio (c : Char) : Bool :=
  ('A' ≤ c && c ≤ 'Z') || ('А' ≤ c && c ≤ 'Я') || c == 'Ё' || c == 'І' ||
  c == 'Ї' || c == 'Є' || c == 'Ґ'

/-- Lowercase letter class `[а-яёіїєґa-z]` of the FIO patterns. -/
def isLowerFio (c : Char) : Bool :=
  ('a' ≤ c && c ≤ 'z') || ('а' ≤ c && c ≤ 'я') || c == 'ё' || c == 'і' ||
  c == 'ї' || c == 'є' || c == 'ґ'

/-- Match `[А-ЯЁІЇЄҐA-Z][а-яёіїєґa-z]{minL,}` at the start of `s`:
an uppercase letter followed by a maximal run of at least `minL` lowercase
letters (the greedy run is deterministic because a failed continuation
cannot be fixed by shortening it: the next character would still not be
whitespace). -/
def fioWord (minL : Nat) (s : List Char) : Option (List Char × List Char) :=
  match s with
  | [] => none
  | c :: rest =>
    if isUpperFio c then
      let run := rest.takeWhile isLowerFio
      if minL ≤ run.length then some (c :: run, rest.drop run.length) else none
    else none

/-- Match `\s+` at the start of `s` (at least one whitespace character). -/
def spacesOne (s : List Char) : Option (List Char × List Char) :=
  let run := s.takeWhile isPySpace
  if run.isEmpty then none else some (run, s.drop run.length)

/-- A group-capturing matcher for the FIO patterns. -/
abbrev FioPat := Bool → List Char → Option (List (List Char) × Bool × List Char)

/-- FIO pattern 1, three capitalized words
`([U][l]{2,})\s+([U][l]{2,})\s+([U][l]{2,})`. -/
def fioThree : FioPat := fun _ s =>
  match fioWord 2 s with
  | none => none
  | some (w1, r1) =>
    match spacesOne r1 with
    | none => none
    | some (_, r2) =>
      match fioWord 2 r2 with
      | none => none
      | some (w2, r3) =>
        match spacesOne r3 with
        | none => none
        | some (_, r4) =>
          match fioWord 2 r4 with
          | none => none
          | some (w3, r5) => some ([w1, w2, w3], true, r5)

/-- FIO pattern 2, two capitalized words `([U][l]{1,})\s+([U][l]{1,})`. -/
def fioTwo : FioPat := fun _ s =>
  match fioWord 1 s with
  | none => none
  | some (w1, r1) =>
    match spacesOne r1 with
    | none => none
    | some (_, r2) =>
      match fioWord 1 r2 with
      | none => none
      | some (w2, r3) => some ([w1, w2], true, r3)

/-- Fuel-driven `re.finditer` for group-capturing patterns. -/
def finditerFioAux (pat : FioPat) : Nat → Bool → List Char → List (List (List Char))
  | 0, _, _ => []
  | _ + 1, _, [] => []
  | fuel + 1, prevWord, c :: rest =>
    match pat prevWord (c :: rest) with
    | some (gs, lastWord, rest2) => gs :: finditerFioAux pat fuel lastWord rest2
    | none => finditerFioAux pat fuel (isWordChar c) rest

/-- All group captures of a FIO pattern over a line. -/
def finditerFio (pat : FioPat) (s : List Char) : List (List (List Char)) :=
  finditerFioAux pat s.length false s

/-- A name candidate: (priority, name, line index, line). -/
abbrev FioCand := Int × (List Char × Nat × List Char)

/-- The per-match body of the FIO loop (src/app.py lines 218-264):
word-level filters then the priority score. -/
def fioCandOfMatch (idx : Nat) (line lineLower : List Char)
    (groups : List (List Char)) : Option FioCand :=
  let fio := joinSpace groups
  let words := pyWords fio
  if words.length < 2 then none
  else if words.any (fun w => fioStopWords.contains (w.map pyLower)) then none
  else if words.all (fun w => fioPositionWords.contains (w.map pyLower)) then none
  else
    let p0 : Int := 100 - (idx : Int)
    let p1 : Int :=
      if words.length = 3 then p0 + 60
      else if words.length = 2 then
        let lenSum := (words.map List.length).sum
        if 10 ≤ lenSum then p0 + 40
        else if 6 ≤ lenSum then p0 + 25
        else p0 + 10
      else p0
    let p2 : Int := if idx < 3 then p1 + 100 else if idx < 10 then p1 + 50 else p1
    let p3 : Int := if line.length < 60 then p2 + 30 else p2
    let p4 : Int :=
      if fioPositionWords.any (fun pw => containsSub pw lineLower) then p3 - 10 else p3
    some (p4, fio, idx, line)

/-- All candidates contributed by one surviving line: pattern 1 matches
first, then pattern 2 matches, in match order. -/
def fioLineMatches (idx : Nat) (line lineLower : List Char) : List FioCand :=
  (finditerFio fioThree line).filterMap (fioCandOfMatch idx line lineLower) ++
  (finditerFio fioTwo line).filterMap (fioCandOfMatch idx line lineLower)

/-- One line of the candidate loop (src/app.py lines 189-264): the
exclusion filters in source order, then the pattern matches
(`line.map pyLower` is Python's `line_lower`). -/
def fioLineCandidates (idx : Nat) (line : List Char) : List FioCand :=
  if emailUrlTest line then []
  else if domainTest line then []
  else if dateYearTest line then []
  else if 10 < digitCount line then []
  else if (fioStopWords.any (fun w => startsWithList w (line.map pyLower))) &&
      !(fioPositionWords.any (fun pw => containsSub pw (line.map pyLower))) then []
  else fioLineMatches idx line (line.map pyLower)

/-- Stable selection of the maximum-priority candidate: a later candidate
replaces the current best only when its priority is strictly greater.  This
is Python `candidates.sort(key=lambda x: x[0], reverse=True)` (a stable
sort) followed by taking the first element. -/
def pickBestAux : FioCand → List FioCand → FioCand
  | b, [] => b
  | b, c :: rest => pickBestAux (if b.1 < c.1 then c else b) rest

/-- Return the name of the best candidate, if any. -/
def pickBest : List FioCand → Option (List Char)
  | [] => none
  | c :: rest => some (pickBestAux c rest).2.1

/-- The non-empty stripped lines `extract_fio_from_text` works on:
whitespace is collapsed first, so the split on `"\n"` is applied to a
newline-free string. -/
def fioLines (text : List Char) : List (List Char) :=
  ((splitNl (collapseWs text)).map pyStrip).filter (fun l => l ≠ [])

/-- Embedding of `extract_fio_from_text` (src/app.py lines 146-273). -/
def extract_fio_from_text (text : List Char) : Option (List Char) :=
  if text = [] then none
  else
    let searchLines := (fioLines text).take 50
    let cands := searchLines.enum.foldl
      (fun acc p => acc ++ fioLineCandidates p.1 p.2) []
    pickBest cands

-- ---------- Title extractor ----------

/-- The separator class `[:\s\-—]` of the label patterns. -/
def isLabelSep (c : Char) : Bool :=
  c == ':' || isPySpace c || c == '-' || c == '—'

/-- Case-insensitive literal match (the label patterns carry `(?i)`):
consume `lit` at the start of `s`, comparing lowercased characters. -/
def litCiAt (lit : List Char) (s : List Char) : Option (List Char) :=
  match lit, s with
  | [], rest => some rest
  | _ :: _, [] => none
  | l :: ls, c :: cs => if pyLower l = pyLower c then litCiAt ls cs else none

/-- Try each alternative literal in order (regex alternation order). -/
def litAnyCi (lits : List (List Char)) (s : List Char) : Option (List Char) :=
  match lits with
  | [] => none
  | l :: ls =>
    match litCiAt l s with
    | some rest => some rest
    | none => litAnyCi ls s

/-- Backtracking loop for `[:\s\-—]{low,}(.+?)(?:\n|$)` after the label:
the greedy class run tries `j` separator characters from the maximal run
length downwards, and the lazy capture then deterministically takes the
characters up to the next newline or the end, requiring at least one. -/
def sepCapture (rest : List Char) (low : Nat) : Nat → Option (List Char)
  | 0 =>
    if low = 0 then
      let cap := rest.takeWhile (fun c => c ≠ '\n')
      if cap.isEmpty then none else some cap
    else none
  | j + 1 =>
    if j + 1 < low then none
    else
      let cap := ((rest.drop (j + 1)).takeWhile (fun c => c ≠ '\n'))
      if cap.isEmpty then sepCapture rest low j else some cap

/-- One label pattern: alternative head literals, an optional
`\s+`-separated middle literal group, and whether the separator class
requires at least one character (`+`) or not (`*`). -/
structure LabelPat where
  heads : List (List Char)
  mid : Option (List (List Char))
  sepRequired : Bool

/-- Try a label pattern at the start of `s`, producing the capture. -/
def tryLabelAt (p : LabelPat) (s : List Char) : Option (List Char) :=
  match litAnyCi p.heads s with
  | none => none
  | some r1 =>
    let r2o :=
      match p.mid with
      | none => some r1
      | some mids =>
        match spacesOne r1 with
        | none => none
        | some (_, rr) => litAnyCi mids rr
    match r2o with
    | none => none
    | some r2 =>
      let maxRun := (r2.takeWhile isLabelSep).length
      sepCapture r2 (if p.sepRequired then 1 else 0) maxRun

/-- Leftmost `re.search` of a label pattern: try every start position. -/
def searchLabel (p : LabelPat) : List Char → Option (List Char)
  | [] => none
  | c :: rest =>
    match tryLabelAt p (c :: rest) with
    | some cap => some cap
    | none => searchLabel p rest

/-- The ordered `position_patterns` list (src/app.py lines 284-294). -/
def labelPatterns : List LabelPat :=
  [⟨[pyStr "желаемая", pyStr "бажана"], some [pyStr "должность", pyStr "посада"], false⟩,
   ⟨[pyStr "должность", pyStr "посада"], none, true⟩,
   ⟨[pyStr "вакансия", pyStr "вакансія"], none, true⟩,
   ⟨[pyStr "розглядає", pyStr "рассматривает"], some [pyStr "посади", pyStr "должности"], false⟩,
   ⟨[pyStr "позиция", pyStr "позиція"], none, true⟩,
   ⟨[pyStr "position"], none, true⟩,
   ⟨[pyStr "objective"], none, true⟩,
   ⟨[pyStr "цель", pyStr "ціль"], none, true⟩,
   ⟨[pyStr "ищу", pyStr "шукаю"], some [pyStr "работу", pyStr "роботу"], false⟩]

/-- Cleanup applied to a label capture (src/app.py lines 300-306):
strip, drop a trailing `[_\-—\.]+` run, strip, truncate at the first
newline, strip, drop a trailing whitespace-plus-long-digit-run. -/
def labelCleanup (cap : List Char) : List Char :=
  let s1 := pyStrip cap
  let s2 := pyStrip (stripTrailRun (fun c => c == '_' || c == '-' || c == '—' || c == '.') s1)
  let s3 := pyStrip ((splitNl s2).headD [])
  stripTrailId s3

/-- The label-search phase: patterns in order over the first 4000
characters; the first match whose cleaned capture is 3-200 characters long
is returned, otherwise the next pattern is tried. -/
def labelSearchAll (t4000 : List Char) : List LabelPat → Option (List Char)
  | [] => none
  | p :: ps =>
    match searchLabel p t4000 with
    | some cap =>
      let pos := labelCleanup cap
      if 3 ≤ pos.length ∧ pos.length ≤ 200 then some pos
      else labelSearchAll t4000 ps
    | none => labelSearchAll t4000 ps

/-- The combined profession-keyword vocabulary `all_keywords`
(src/app.py lines 312-330), Ukrainian then Russian then English. -/
def allKeywords : List (List Char) :=
  [pyStr "менеджер", pyStr "адміністратор", pyStr "продавець", pyStr "консультант",
   pyStr "спеціаліст", pyStr "помічник", pyStr "оператор", pyStr "координатор",
   pyStr "асистент", pyStr "керівник", pyStr "бариста", pyStr "офіс-менеджер",
   pyStr "секретар", pyStr "рекрутер",
   pyStr "менеджер", pyStr "администратор", pyStr "продавец", pyStr "консультант",
   pyStr "специалист", pyStr "помощник", pyStr "оператор", pyStr "координатор",
   pyStr "ассистент", pyStr "руководитель", pyStr "бариста", pyStr "офис-менеджер",
   pyStr "секретарь", pyStr "рекрутер",
   pyStr "manager", pyStr "administrator", pyStr "seller", pyStr "consultant",
   pyStr "specialist", pyStr "assistant", pyStr "operator", pyStr "coordinator",
   pyStr "director", pyStr "supervisor", pyStr "barista", pyStr "recruiter",
   pyStr "designer", pyStr "developer", pyStr "engineer"]

/-- Is some profession keyword a substring of the (lowercased) string? -/
def hasKeywordSub (lower : List Char) : Bool :=
  allKeywords.any (fun kw => containsSub kw lower)

/-- Does the line contain four consecutive digit characters (`\d{4}`)? -/
def hasFourDigits : List Char → Bool
  | a :: b :: c :: d :: rest =>
    (isDigit a && isDigit b && isDigit c && isDigit d) ||
    hasFourDigits (b :: c :: d :: rest)
  | _ => false

/-- Embedding of `re.search(r"(@|https?://|www\.|\d{4}|\.com|\.ua|\.ru)", line)`
(src/app.py line 340). -/
def fallbackSkipTest (line : List Char) : Bool :=
  containsSub (pyStr "@") line || containsSub (pyStr "http://") line ||
  containsSub (pyStr "https://") line || containsSub (pyStr "www.") line ||
  hasFourDigits line || containsSub (pyStr ".com") line ||
  containsSub (pyStr ".ua") line || containsSub (pyStr ".ru") line

/-- Python `re.match(r"^[А-ЯЁA-Z][а-яёa-z]+$", word)`: one uppercase
Russian/Latin letter followed by at least one lowercase letter, matching
the whole word. -/
def capWordTest (w : List Char) : Bool :=
  match w with
  | [] => false
  | c :: rest =>
    (('A' ≤ c && c ≤ 'Z') || ('А' ≤ c && c ≤ 'Я') || c == 'Ё') &&
    !rest.isEmpty &&
    rest.all (fun d => ('a' ≤ d && d ≤ 'z') || ('а' ≤ d && d ≤ 'я') || d == 'ё')

/-- The word-retention walk of the keyword fallback (src/app.py lines
355-364), kept with the same three-branch structure as the source: a word
containing a keyword is retained; once the accumulator is non-empty, both
remaining branches retain the word (the capitalized-word test selects
between two branches with identical bodies). -/
def positionWalkAux (acc : List (List Char)) : List (List Char) → List (List Char)
  | [] => acc
  | w :: rest =>
    let wl := w.map pyLower
    if hasKeywordSub wl then positionWalkAux (acc ++ [w]) rest
    else if acc ≠ [] && !(capWordTest w) then positionWalkAux (acc ++ [w]) rest
    else if acc ≠ [] then positionWalkAux (acc ++ [w]) rest
    else positionWalkAux acc rest

/-- The word-retention walk starting from an empty accumulator. -/
def positionWalk (ws : List (List Char)) : List (List Char) :=
  positionWalkAux [] ws

/-- The keyword-fallback loop over the first 40 lines
(src/app.py lines 332-376). -/
def keywordFallback : List (List Char) → Option (List Char)
  | [] => none
  | line :: rest =>
    if 150 < line.length then keywordFallback rest
    else if fallbackSkipTest line then keywordFallback rest
    else if hasKeywordSub (line.map pyLower) then
      let cleaned := stripTrailId line
      let posWords := positionWalk (pyWords cleaned)
      if posWords ≠ [] then
        let position :=
          stripTrailRun (fun c => c == ',' || c == ';' || c == ':' || c == '.')
            (pyStrip (joinSpace posWords))
        if 5 ≤ position.length ∧ position.length ≤ 150 then some position
        else if 5 ≤ cleaned.length ∧ cleaned.length ≤ 100 then some cleaned
        else keywordFallback rest
      else if 5 ≤ cleaned.length ∧ cleaned.length ≤ 100 then some cleaned
      else keywordFallback rest
    else keywordFallback rest

/-- The non-empty stripped lines of the original (uncollapsed) text used by
`extract_position_from_text`. -/
def positionLines (text : List Char) : List (List Char) :=
  ((splitNl text).map pyStrip).filter (fun l => l ≠ [])

/-- Embedding of `extract_position_from_text` (src/app.py lines 276-378):
label search over the first 4000 characters, then the keyword fallback
over the first 40 non-empty lines. -/
def extract_position_from_text (text : List Char) : Option (List Char) :=
  if text = [] then none
  else
    match labelSearchAll (text.take 4000) labelPatterns with
    | some pos => some pos
    | none => keywordFallback ((positionLines text).take 40)

-- ---------- Specification-side predicates and concrete documents ----------

/-- Well-formedness of an emitted phone candidate, following the spec
invariant: only digits and `+`, at most one `+` and only as the first
character, and 9 to 13 digit characters. -/
def phoneWellFormed (p : List Char) : Bool :=
  p.all isPhoneChar &&
  !(decide ('+' ∈ p.drop 1)) &&
  (9 ≤ digitCount p && digitCount p ≤ 13)

/-- A document whose lines 1-50 are `"a"` and whose 51st line is a
name-shaped word pair: the name occurs only after the 50th line. -/
def docAfter50 : List Char :=
  (List.replicate 50 (pyStr "a\n")).flatten ++ pyStr "Petrenko Ivan"

/-- A document whose line 0 is a 3-word name and whose line 20 contains a
profession word followed by a 2-word name. -/
def docScoring : List Char :=
  pyStr "Petrenko Ivan Mykolayovych\n" ++ (List.replicate 19 (pyStr "a\n")).flatten ++
  pyStr "Consultant Svitlana Boiko"

/-- A document containing two phone numbers: a national `0…` number first,
then a `+380…` number. -/
def docTwoPhones : List Char := pyStr "0501234567 +380671112233"

/-- A document with an explicit label line and a bare-keyword line. -/
def docLabelAndKeyword : List Char :=
  pyStr "Petrenko Ivan\nDesired position: Sales Manager\nworked as manager in shop"

/-- A document with an earlier-matching label line before the
`"Desired position"` line, plus a bare-keyword line. -/
def docTwoLabels : List Char :=
  pyStr "Position: Cook\nDesired position: Sales Manager\nworked as manager"

-- ====================== Theorems ======================

/-- Claim C2: the four phone round-trip normalizations hold:
`"0501234567"` is returned unchanged, `"+380501234567"` is returned
unchanged, `"380501234567"` gains a leading `+`, and the 9-digit
`"501234567"` gains a leading `0`. -/
theorem C2_phone_round_trip :
    clean_phone (pyStr "0501234567") = some (pyStr "0501234567") ∧
    clean_phone (pyStr "+380501234567") = some (pyStr "+380501234567") ∧
    clean_phone (pyStr "380501234567") = some (pyStr "+380501234567") ∧
    clean_phone (pyStr "501234567") = some (pyStr "0501234567") := by
  decide

/-- Claim C3, counterexample: on `docTwoPhones` (`"0501234567 +380671112233"`)
the returned list places the `+380` number first although its first
occurrence in the document (index 11) is after the national number
(index 0); the list is ordered by pattern priority, not by first occurrence
in the document. -/
theorem C3_counterexample :
    find_all_phones docTwoPhones =
      [pyStr "+380671112233", pyStr "0501234567", pyStr "3806711122"] ∧
    firstOccIdx (pyStr "0501234567") docTwoPhones = some 0 ∧
    firstOccIdx (pyStr "+380671112233") docTwoPhones = some 11 := by
  decide

/-- Claim C4, counterexample: a text whose only digit sequence is a
14-digit run does yield a phone candidate: the generic 10-digit pattern
matches the first ten digits and the normalized prefix `"1234567890"`
survives every filter. -/
theorem C4_counterexample :
    find_all_phones (pyStr "12345678901234") = [pyStr "1234567890"] ∧
    find_all_phones (pyStr "12345678901234") ≠ [] := by
  decide

/-- Claim C4, amended: `"19901231"` and `"1111111111"` yield no candidate;
a 14-digit run never yields a candidate with more than 13 digits (the full
value is rejected), but a 10-digit prefix candidate is extracted. -/
theorem C4_amended :
    find_all_phones (pyStr "19901231") = [] ∧
    find_all_phones (pyStr "1111111111") = [] ∧
    find_all_phones (pyStr "12345678901234") = [pyStr "1234567890"] ∧
    ∀ p ∈ find_all_phones (pyStr "12345678901234"), digitCount p ≤ 13 := by
  decide

/-- Claim C5, counterexample: `docTwoLabels` contains the explicit
`"Desired position: Sales Manager"` line and a bare-keyword `"manager"`
line, yet the extractor returns `"Cook"`, because the generic
`position[:\s\-—]+…` label pattern finds its leftmost match on the earlier
`"Position: Cook"` line. -/
theorem C5_counterexample :
    extract_position_from_text docTwoLabels = some (pyStr "Cook") ∧
    containsSub (pyStr "Desired position: Sales Manager") docTwoLabels = true ∧
    containsSub (pyStr "manager") docTwoLabels = true ∧
    some (pyStr "Cook") ≠ some (pyStr "Sales Manager") := by
  decide

/-- Claim C5, amended: when the `"Desired position: Sales Manager"` line
provides the first label-pattern match of the document, the label result
wins over the bare keyword `"manager"` occurring on another line. -/
theorem C5_amended :
    containsSub (pyStr "manager") docLabelAndKeyword = true ∧
    extract_position_from_text docLabelAndKeyword = some (pyStr "Sales Manager") := by
  decide

/-- Claim C6, counterexample: in the keyword fallback the non-capitalized
word `"junior"` occurring before the first keyword hit is dropped, not
kept: the reconstructed title for `"junior manager"` is `"manager"`. -/
theorem C6_counterexample :
    extract_position_from_text (pyStr "junior manager") = some (pyStr "manager") ∧
    some (pyStr "manager") ≠ some (pyStr "junior manager") := by
  decide

/-- Claim C7: on `docScoring` (3-word name on line 0, profession word and
2-word name on line 20) the first-line 3-word candidate wins. -/
theorem C7_name_scoring :
    extract_fio_from_text docScoring = some (pyStr "Petrenko Ivan Mykolayovych") := by
  decide

/-- Claim C9: on empty text all three extractors return the no-result
value; in this embedding every extractor is a total function, so no
input can raise. -/
theorem C9_empty_input :
    extract_fio_from_text (pyStr "") = none ∧
    extract_position_from_text (pyStr "") = none ∧
    best_phone (pyStr "") = none := by
  decide

/-- Claim C1, failing input: in `docAfter50` the pair `"Petrenko Ivan"`
occurs only on the 51st line, yet it is returned, because whitespace
normalization deletes every newline before the split, leaving a single
search line (the second conjunct). -/
theorem C1_code_behavior :
    extract_fio_from_text docAfter50 = some (pyStr "Petrenko Ivan") ∧
    (fioLines docAfter50).length = 1 := by
  decide

-- ---------- Claim C8: phone candidate invariant ----------

/-- Characters emitted by `collapsePlusAux` come from the input or are `+`. -/
lemma mem_collapsePlusAux {c : Char} :
    ∀ (l : List Char) (b : Bool), c ∈ collapsePlusAux b l → c ∈ l ∨ c = '+' := by
  intro l
  induction l with
  | nil => intro b h; simp [collapsePlusAux] at h
  | cons a as ih =>
    intro b h
    unfold collapsePlusAux at h
    split_ifs at h with h1 h2
    · rcases ih _ h with h3 | h3
      · exact Or.inl (List.mem_cons_of_mem _ h3)
      · exact Or.inr h3
    · rcases List.mem_cons.mp h with h3 | h3
      · exact Or.inr h3
      · rcases ih _ h3 with h4 | h4
        · exact Or.inl (List.mem_cons_of_mem _ h4)
        · exact Or.inr h4
    · rcases List.mem_cons.mp h with h3 | h3
      · exact Or.inl (h3 ▸ List.mem_cons_self _ _)
      · rcases ih _ h3 with h4 | h4
        · exact Or.inl (List.mem_cons_of_mem _ h4)
        · exact Or.inr h4

/-- Characters of `removeInnerPlus l` come from `l`. -/
lemma mem_removeInnerPlus {c : Char} :
    ∀ l : List Char, c ∈ removeInnerPlus l → c ∈ l := by
  intro l h
  cases l with
  | nil => simp [removeInnerPlus] at h
  | cons a as =>
    simp only [removeInnerPlus] at h
    split_ifs at h with h1
    · rcases List.mem_cons.mp h with h2 | h2
      · exact h2 ▸ List.mem_cons_self _ _
      · exact List.mem_cons_of_mem _ (List.mem_filter.mp h2).1
    · exact h

/-- After `removeInnerPlus`, no character past the first is `+`. -/
lemma removeInnerPlus_drop_one :
    ∀ l : List Char, '+' ∉ (removeInnerPlus l).drop 1 := by
  intro l h
  cases l with
  | nil => simp [removeInnerPlus] at h
  | cons a as =>
    simp only [removeInnerPlus] at h
    split_ifs at h with h1
    · simp only [List.drop_one, List.tail_cons] at h
      have := (List.mem_filter.mp h).2
      simp at this
    · simp only [List.drop_one, List.tail_cons] at h
      exact h1 h

/-- Every successful `clean_phone` output is a well-formed candidate. -/
lemma clean_phone_wellFormed (s p : List Char) (h : clean_phone s = some p) :
    phoneWellFormed p = true := by
  have hcoreDigit : ∀ c ∈ phoneCoreOf s, isDigit c = true := by
    intro c hcm
    exact (List.mem_filter.mp hcm).2
  have hcoreNoPlus : '+' ∉ phoneCoreOf s := by
    intro hcm
    have := hcoreDigit _ hcm
    exact absurd this (by decide)
  have hcoreClass : ∀ c ∈ phoneCoreOf s, isPhoneChar c = true := by
    intro c hcm
    simp [isPhoneChar, hcoreDigit c hcm]
  have hfilterCore : (phoneCoreOf s).filter isDigit = phoneCoreOf s :=
    List.filter_eq_self.mpr hcoreDigit
  have hdigitsClass : ∀ c ∈ phoneDigitsOf s, isPhoneChar c = true := by
    intro c hcm
    have h1 := mem_removeInnerPlus _ hcm
    rcases mem_collapsePlusAux _ _ h1 with h2 | h2
    · exact (List.mem_filter.mp h2).2
    · simp [isPhoneChar, h2]
  unfold clean_phone at h
  split_ifs at h with h1 h2 h3 h4
  · simp only [Option.some.injEq] at h
    subst h
    simp only [phoneWellFormed, Bool.and_eq_true, List.all_eq_true,
      Bool.not_eq_true', decide_eq_false_iff_not, decide_eq_true_eq]
    refine ⟨⟨hcoreClass, ?_⟩, ?_, ?_⟩
    · intro hcm
      exact hcoreNoPlus (List.mem_of_mem_drop hcm)
    · unfold digitCount; rw [hfilterCore, h1.1]; omega
    · unfold digitCount; rw [hfilterCore, h1.1]; omega
  · simp only [Option.some.injEq] at h
    subst h
    have hfc : List.filter isDigit ('+' :: phoneCoreOf s) = phoneCoreOf s := by
      simp only [List.filter_cons]
      rw [if_neg (by decide), hfilterCore]
    simp only [phoneWellFormed, Bool.and_eq_true, List.all_eq_true,
      Bool.not_eq_true', decide_eq_false_iff_not, decide_eq_true_eq]
    refine ⟨⟨?_, ?_⟩, ?_, ?_⟩
    · intro c hcm
      rcases List.mem_cons.mp hcm with h5 | h5
      · subst h5; decide
      · exact hcoreClass c h5
    · simpa only [List.drop_one, List.tail_cons] using hcoreNoPlus
    · unfold digitCount; rw [hfc, h2.1]; omega
    · unfold digitCount; rw [hfc, h2.1]; omega
  · simp only [Option.some.injEq] at h
    subst h
    have hfc : List.filter isDigit ('0' :: phoneCoreOf s) = '0' :: phoneCoreOf s := by
      simp only [List.filter_cons]
      rw [if_pos (by decide), hfilterCore]
    simp only [phoneWellFormed, Bool.and_eq_true, List.all_eq_true,
      Bool.not_eq_true', decide_eq_false_iff_not, decide_eq_true_eq]
    refine ⟨⟨?_, ?_⟩, ?_, ?_⟩
    · intro c hcm
      rcases List.mem_cons.mp hcm with h5 | h5
      · subst h5; decide
      · exact hcoreClass c h5
    · simpa only [List.drop_one, List.tail_cons] using hcoreNoPlus
    · unfold digitCount; rw [hfc, List.length_cons, h3]; omega
    · unfold digitCount; rw [hfc, List.length_cons, h3]; omega
  · simp only [Option.some.injEq] at h
    subst h
    simp only [phoneWellFormed, Bool.and_eq_true, List.all_eq_true,
      Bool.not_eq_true', decide_eq_false_iff_not, decide_eq_true_eq]
    refine ⟨⟨hdigitsClass, ?_⟩, ?_, ?_⟩
    · exact removeInnerPlus_drop_one _
    · exact h4.1
    · exact h4.2

/-- The loop body either leaves the candidate list unchanged or appends a
fresh `clean_phone` output. -/
lemma processMatch_cases (cands : List (List Char)) (raw : List Char) :
    processMatch cands raw = cands ∨
    ∃ phone, clean_phone raw = some phone ∧ phone ∉ cands ∧
      processMatch cands raw = cands ++ [phone] := by
  unfold processMatch
  cases hcp : clean_phone raw with
  | none => exact Or.inl rfl
  | some phone =>
    dsimp only
    split_ifs with hm h1 h2 h3
    · exact Or.inl rfl
    · exact Or.inl rfl
    · exact Or.inl rfl
    · exact Or.inl rfl
    · exact Or.inr ⟨phone, rfl, hm, rfl⟩

/-- Members of the folded candidate list come from the accumulator or are
`clean_phone` outputs. -/
lemma mem_foldl_processMatch :
    ∀ (ms cands : List (List Char)) (p : List Char),
      p ∈ ms.foldl processMatch cands → p ∈ cands ∨ ∃ raw, clean_phone raw = some p := by
  intro ms
  induction ms with
  | nil => intro cands p hp; exact Or.inl hp
  | cons m ms ih =>
    intro cands p hp
    simp only [List.foldl_cons] at hp
    rcases ih _ _ hp with h | h
    · rcases processMatch_cases cands m with hcase | ⟨phone, hcp, _, hcase⟩
      · rw [hcase] at h
        exact Or.inl h
      · rw [hcase] at h
        rcases List.mem_append.mp h with h2 | h2
        · exact Or.inl h2
        · simp only [List.mem_singleton] at h2
          subst h2
          exact Or.inr ⟨m, hcp⟩
    · exact Or.inr h

/-- Members of the pattern-level fold come from the accumulator or are
`clean_phone` outputs. -/
lemma mem_foldl_runPattern (t : List Char) :
    ∀ (pats : List PhonePat) (cands : List (List Char)) (p : List Char),
      p ∈ pats.foldl (runPattern t) cands → p ∈ cands ∨ ∃ raw, clean_phone raw = some p := by
  intro pats
  induction pats with
  | nil => intro cands p hp; exact Or.inl hp
  | cons q qs ih =>
    intro cands p hp
    simp only [List.foldl_cons] at hp
    rcases ih _ _ hp with h | h
    · exact mem_foldl_processMatch _ _ _ h
    · exact Or.inr h

/-- Claim C8: every string returned by `find_all_phones` consists only of
digits and at most one `+`, the `+` only as the first character, with 9 to
13 digit characters. -/
theorem C8_candidate_invariant (text p : List Char)
    (hp : p ∈ find_all_phones text) : phoneWellFormed p = true := by
  unfold find_all_phones at hp
  rcases mem_foldl_runPattern _ _ _ _ hp with h | ⟨raw, hraw⟩
  · simp at h
  · exact clean_phone_wellFormed _ _ hraw

/-- Claim C8, witness: the single candidate extracted from `"0501234567"`
is well-formed. -/
theorem C8_witness :
    (pyStr "0501234567") ∈ find_all_phones (pyStr "0501234567") ∧
    phoneWellFormed (pyStr "0501234567") = true :=
  ⟨by decide, C8_candidate_invariant (pyStr "0501234567") (pyStr "0501234567") (by decide)⟩

-- ---------- Claim C3, amended part: no duplicates ----------

/-- The match fold preserves freedom from duplicates. -/
lemma nodup_foldl_processMatch :
    ∀ (ms cands : List (List Char)), cands.Nodup → (ms.foldl processMatch cands).Nodup := by
  intro ms
  induction ms with
  | nil => intro cands h; exact h
  | cons m ms ih =>
    intro cands h
    simp only [List.foldl_cons]
    rcases processMatch_cases cands m with hcase | ⟨phone, _, hmem, hcase⟩
    · rw [hcase]; exact ih _ h
    · rw [hcase]
      refine ih _ ?_
      simp only [List.nodup_append, List.nodup_singleton, true_and]
      exact ⟨h, by simpa [List.disjoint_singleton] using hmem⟩

/-- The pattern fold preserves freedom from duplicates. -/
lemma nodup_foldl_runPattern (t : List Char) :
    ∀ (pats : List PhonePat) (cands : List (List Char)),
      cands.Nodup → (pats.foldl (runPattern t) cands).Nodup := by
  intro pats
  induction pats with
  | nil => intro cands h; exact h
  | cons q qs ih =>
    intro cands h
    simp only [List.foldl_cons]
    exact ih _ (nodup_foldl_processMatch _ _ h)

/-- Claim C3, amended: the candidate list never contains duplicate values
(the order is pattern-priority order, then match order within a pattern,
not global first-occurrence order — see the counterexample). -/
theorem C3_amended (text : List Char) : (find_all_phones text).Nodup := by
  unfold find_all_phones
  exact nodup_foldl_runPattern _ _ _ List.nodup_nil

-- ---------- Claim C10: whitespace normalization merges all lines ----------

/-- Enumeration of the whitespace characters. -/
lemma space_cases (c : Char) (h : isPySpace c = true) :
    c = ' ' ∨ c = '\t' ∨ c = '\n' ∨ c = '\r' ∨ c = '\x0b' ∨ c = '\x0c' := by
  by_cases h1 : c = ' '
  · exact Or.inl h1
  · by_cases h2 : c = '\t'
    · exact Or.inr (Or.inl h2)
    · by_cases h3 : c = '\n'
      · exact Or.inr (Or.inr (Or.inl h3))
      · by_cases h4 : c = '\r'
        · exact Or.inr (Or.inr (Or.inr (Or.inl h4)))
        · by_cases h5 : c = '\x0b'
          · exact Or.inr (Or.inr (Or.inr (Or.inr (Or.inl h5))))
          · by_cases h6 : c = '\x0c'
            · exact Or.inr (Or.inr (Or.inr (Or.inr (Or.inr h6))))
            · exfalso
              simp [isPySpace, h1, h2, h3, h4, h5, h6] at h

/-- A whitespace character is not a word character. -/
lemma space_not_word (c : Char) (h : isPySpace c = true) : isWordChar c = false := by
  rcases space_cases c h with rfl | rfl | rfl | rfl | rfl | rfl <;> decide

/-- A digit is not a whitespace character. -/
lemma digit_not_space (c : Char) (h : isDigit c = true) : isPySpace c = false := by
  cases hs : isPySpace c
  · rfl
  · exfalso
    rcases space_cases c hs with rfl | rfl | rfl | rfl | rfl | rfl <;>
      exact absurd h (by decide)

/-- A date-shaped block has exactly 10 characters, none of them whitespace. -/
lemma dateShape_spec :
    ∀ l : List Char, dateShape l = true → l.length = 10 ∧ ∀ c ∈ l, isPySpace c = false := by
  intro l h
  rcases l with _ | ⟨a, _ | ⟨b, _ | ⟨c, _ | ⟨d, _ | ⟨e, _ | ⟨f, _ | ⟨g, _ | ⟨h2, _ |
    ⟨i, _ | ⟨j, _ | ⟨k, tl⟩⟩⟩⟩⟩⟩⟩⟩⟩⟩⟩
  all_goals try (solve | simp [dateShape] at h)
  simp only [dateShape, Bool.and_eq_true, beq_iff_eq] at h
  obtain ⟨⟨⟨⟨⟨⟨⟨⟨⟨ha, hb⟩, hc⟩, hd⟩, he⟩, hf⟩, hg⟩, hh⟩, hi⟩, hj⟩ := h
  refine ⟨rfl, ?_⟩
  intro x hx
  simp only [List.mem_cons, List.not_mem_nil, or_false] at hx
  rcases hx with rfl | rfl | rfl | rfl | rfl | rfl | rfl | rfl | rfl | rfl
  · exact digit_not_space _ ha
  · exact digit_not_space _ hb
  · rw [hc]; decide
  · exact digit_not_space _ hd
  · exact digit_not_space _ he
  · rw [hf]; decide
  · exact digit_not_space _ hg
  · exact digit_not_space _ hh
  · exact digit_not_space _ hi
  · exact digit_not_space _ hj

/-- A year-shaped block has exactly 4 characters, none of them whitespace. -/
lemma yearShape_spec :
    ∀ l : List Char, yearShape l = true → l.length = 4 ∧ ∀ c ∈ l, isPySpace c = false := by
  intro l h
  rcases l with _ | ⟨a, _ | ⟨b, _ | ⟨c, _ | ⟨d, _ | ⟨e, tl⟩⟩⟩⟩⟩
  all_goals try (solve | simp [yearShape] at h)
  simp only [yearShape, Bool.and_eq_true, Bool.or_eq_true, beq_iff_eq] at h
  obtain ⟨habc, hd⟩ := h
  refine ⟨rfl, ?_⟩
  intro x hx
  simp only [List.mem_cons, List.not_mem_nil, or_false] at hx
  rcases hx with rfl | rfl | rfl | rfl
  · rcases habc with ⟨⟨rfl, _⟩, _⟩ | ⟨⟨rfl, _⟩, _⟩ <;> decide
  · rcases habc with ⟨⟨_, rfl⟩, _⟩ | ⟨⟨_, rfl⟩, _⟩ <;> decide
  · rcases habc with ⟨_, rfl⟩ | ⟨_, h3⟩
    · decide
    · rcases h3 with (rfl | rfl) | rfl <;> decide
  · exact digit_not_space _ hd

/-- Collapsing distributes over an append whose left part has no
whitespace. -/
lemma collapse_append_nonspace :
    ∀ u v : List Char, (∀ c ∈ u, isPySpace c = false) →
      collapseWsAux false (u ++ v) = u ++ collapseWsAux false v := by
  intro u
  induction u with
  | nil => intro v _; rfl
  | cons a u2 ih =>
    intro v hns
    have ha : isPySpace a = false := hns a (List.mem_cons_self _ _)
    simp only [List.cons_append, collapseWsAux, ha, Bool.false_eq_true, if_false,
      List.cons.injEq, true_and]
    exact ih v (fun c hc => hns c (List.mem_cons_of_mem _ hc))

/-- The trailing word boundary survives collapsing. -/
lemma boundaryAfter_collapse (v : List Char) (h : boundaryAfter v = true) :
    boundaryAfter (collapseWsAux false v) = true := by
  cases v with
  | nil => exact h
  | cons c r =>
    by_cases hc : isPySpace c = true
    · have hcol : collapseWsAux false (c :: r) = ' ' :: collapseWsAux true r := by
        simp [collapseWsAux, hc]
      rw [hcol]
      simp only [boundaryAfter]
      decide
    · have hcf : isPySpace c = false := by simpa using hc
      have hcol : collapseWsAux false (c :: r) = c :: collapseWsAux false r := by
        simp [collapseWsAux, hcf]
      rw [hcol]
      simpa only [boundaryAfter] using h

/-- A fixed-width boundary match survives collapsing. -/
lemma matchAtGen_collapse (n : Nat) (shape : List Char → Bool)
    (hs : ∀ l, shape l = true → l.length = n ∧ ∀ c ∈ l, isPySpace c = false)
    (s : List Char) (h : matchAtGen n shape s = true) :
    matchAtGen n shape (collapseWsAux false s) = true := by
  simp only [matchAtGen, Bool.and_eq_true] at h ⊢
  obtain ⟨hshape, hba⟩ := h
  obtain ⟨hlen, hns⟩ := hs _ hshape
  have hcol : collapseWsAux false s = s.take n ++ collapseWsAux false (s.drop n) := by
    conv_lhs => rw [← List.take_append_drop n s]
    exact collapse_append_nonspace _ _ hns
  rw [hcol]
  constructor
  · rw [List.take_left' hlen]
    exact hshape
  · rw [List.drop_left' hlen]
    exact boundaryAfter_collapse _ hba

/-- A fixed-width boundary match never starts at a whitespace character. -/
lemma no_match_at_space (n : Nat) (shape : List Char → Bool) (hn : 1 ≤ n)
    (hs : ∀ l, shape l = true → l.length = n ∧ ∀ c ∈ l, isPySpace c = false)
    (c : Char) (rest : List Char) (hc : isPySpace c = true) :
    matchAtGen n shape (c :: rest) ≠ true := by
  intro hm
  simp only [matchAtGen, Bool.and_eq_true] at hm
  obtain ⟨hsh, _⟩ := hm
  obtain ⟨hlen, hns⟩ := hs _ hsh
  have hcmem : c ∈ (c :: rest).take n := by
    cases n with
    | zero => omega
    | succ m => simp [List.take_succ_cons]
  rw [hns c hcmem] at hc
  exact absurd hc (by decide)

/-- A scan over an all-whitespace string finds nothing. -/
lemma scanGen_all_space (n : Nat) (shape : List Char → Bool) (hn : 1 ≤ n)
    (hs : ∀ l, shape l = true → l.length = n ∧ ∀ c ∈ l, isPySpace c = false) :
    ∀ u : List Char, (∀ c ∈ u, isPySpace c = true) → ∀ pw,
      scanGen n shape pw u = false := by
  intro u
  induction u with
  | nil => intro _ pw; rfl
  | cons c rest ih =>
    intro hall pw
    have hc := hall c (List.mem_cons_self _ _)
    have hnm : matchAtGen n shape (c :: rest) = false := by
      cases hm : matchAtGen n shape (c :: rest)
      · rfl
      · exact absurd hm (no_match_at_space n shape hn hs c rest hc)
    simp only [scanGen, hnm, Bool.and_false, Bool.false_or]
    exact ih (fun d hd => hall d (List.mem_cons_of_mem _ hd)) (isWordChar c)

/-- A scan hit survives whitespace collapsing, provided the scan flag is
`false` whenever the collapser just emitted a space. -/
lemma scanGen_collapse (n : Nat) (shape : List Char → Bool) (hn : 1 ≤ n)
    (hs : ∀ l, shape l = true → l.length = n ∧ ∀ c ∈ l, isPySpace c = false) :
    ∀ (s : List Char) (ps pw : Bool), (ps = true → pw = false) →
      scanGen n shape pw s = true → scanGen n shape pw (collapseWsAux ps s) = true := by
  intro s
  induction s with
  | nil => intro ps pw _ h; exact absurd h (by simp [scanGen])
  | cons c rest ih =>
    intro ps pw hcompat h
    simp only [scanGen, Bool.or_eq_true, Bool.and_eq_true] at h
    by_cases hc : isPySpace c = true
    · have hscan : scanGen n shape false rest = true := by
        rcases h with ⟨_, hm⟩ | hsc
        · exact absurd hm (no_match_at_space n shape hn hs c rest hc)
        · rwa [space_not_word c hc] at hsc
      simp only [collapseWsAux, hc, if_true]
      by_cases hps : ps = true
      · have hpw := hcompat hps
        subst hpw
        simp only [hps, if_true]
        exact ih true false (fun _ => rfl) hscan
      · have hpsf : ps = false := by simpa using hps
        subst hpsf
        simp only [Bool.false_eq_true, if_false]
        simp only [scanGen, Bool.or_eq_true, Bool.and_eq_true]
        right
        rw [show isWordChar ' ' = false from by decide]
        exact ih true false (fun _ => rfl) hscan
    · have hcf : isPySpace c = false := by simpa using hc
      have hcol : collapseWsAux ps (c :: rest) = c :: collapseWsAux false rest := by
        simp [collapseWsAux, hcf]
      rw [hcol]
      simp only [scanGen, Bool.or_eq_true, Bool.and_eq_true]
      rcases h with ⟨hpw, hm⟩ | hsc
      · left
        refine ⟨hpw, ?_⟩
        have h2 := matchAtGen_collapse n shape hs (c :: rest) hm
        have hcol0 : collapseWsAux false (c :: rest) = c :: collapseWsAux false rest := by
          simp [collapseWsAux, hcf]
        rwa [hcol0] at h2
      · right
        exact ih false (isWordChar c) (fun hx => absurd hx (by decide)) hsc

/-- A scan hit survives dropping leading whitespace. -/
lemma scanGen_dropWhile (n : Nat) (shape : List Char → Bool) (hn : 1 ≤ n)
    (hs : ∀ l, shape l = true → l.length = n ∧ ∀ c ∈ l, isPySpace c = false) :
    ∀ s : List Char, scanGen n shape false s = true →
      scanGen n shape false (s.dropWhile isPySpace) = true := by
  intro s
  induction s with
  | nil => intro h; exact h
  | cons c rest ih =>
    intro h
    by_cases hc : isPySpace c = true
    · rw [List.dropWhile_cons, hc, if_pos rfl]
      simp only [scanGen, Bool.or_eq_true, Bool.and_eq_true] at h
      rcases h with ⟨_, hm⟩ | hsc
      · exact absurd hm (no_match_at_space n shape hn hs c rest hc)
      · rw [space_not_word c hc] at hsc
        exact ih hsc
    · have hcf : isPySpace c = false := by simpa using hc
      rw [List.dropWhile_cons, hcf]
      simpa using h

/-- If the right strip empties a string, it was all whitespace. -/
lemma pyStripRight_eq_nil_forall :
    ∀ u : List Char, pyStripRight u = [] → ∀ c ∈ u, isPySpace c = true := by
  intro u
  induction u with
  | nil => intro _ c hc; simp at hc
  | cons a rest ih =>
    intro h c hc
    simp only [pyStripRight] at h
    cases hr : pyStripRight rest with
    | nil =>
      rw [hr] at h
      split_ifs at h with ha
      rcases List.mem_cons.mp hc with rfl | hcm
      · exact ha
      · exact ih hr c hcm
    | cons x xs =>
      rw [hr] at h
      simp at h

/-- The right strip distributes over an append whose left part has no
whitespace. -/
lemma pyStripRight_append_nonspace :
    ∀ u v : List Char, (∀ c ∈ u, isPySpace c = false) →
      pyStripRight (u ++ v) = u ++ pyStripRight v := by
  intro u
  induction u with
  | nil => intro v _; rfl
  | cons a u2 ih =>
    intro v hns
    have ha : isPySpace a = false := hns a (List.mem_cons_self _ _)
    have ih2 := ih v (fun c hc => hns c (List.mem_cons_of_mem _ hc))
    simp only [List.cons_append, pyStripRight, List.append_eq, ih2]
    cases hu : u2 ++ pyStripRight v with
    | nil =>
      obtain ⟨hu2, hv⟩ := List.append_eq_nil.mp hu
      simp [ha, hu2, hv]
    | cons x xs => rfl

/-- The trailing word boundary survives the right strip. -/
lemma boundaryAfter_stripRight (v : List Char) (h : boundaryAfter v = true) :
    boundaryAfter (pyStripRight v) = true := by
  cases v with
  | nil => exact h
  | cons c r =>
    simp only [pyStripRight]
    cases hr : pyStripRight r with
    | nil =>
      split_ifs
      · rfl
      · simpa only [boundaryAfter] using h
    | cons x xs => simpa only [boundaryAfter] using h

/-- A fixed-width boundary match survives the right strip. -/
lemma matchAtGen_stripRight (n : Nat) (shape : List Char → Bool)
    (hs : ∀ l, shape l = true → l.length = n ∧ ∀ c ∈ l, isPySpace c = false)
    (s : List Char) (h : matchAtGen n shape s = true) :
    matchAtGen n shape (pyStripRight s) = true := by
  simp only [matchAtGen, Bool.and_eq_true] at h ⊢
  obtain ⟨hshape, hba⟩ := h
  obtain ⟨hlen, hns⟩ := hs _ hshape
  have hcol : pyStripRight s = s.take n ++ pyStripRight (s.drop n) := by
    conv_lhs => rw [← List.take_append_drop n s]
    exact pyStripRight_append_nonspace _ _ hns
  rw [hcol]
  constructor
  · rw [List.take_left' hlen]
    exact hshape
  · rw [List.drop_left' hlen]
    exact boundaryAfter_stripRight _ hba

/-- A scan hit survives the right strip. -/
lemma scanGen_stripRight (n : Nat) (shape : List Char → Bool) (hn : 2 ≤ n)
    (hs : ∀ l, shape l = true → l.length = n ∧ ∀ c ∈ l, isPySpace c = false) :
    ∀ (u : List Char) (pw : Bool), scanGen n shape pw u = true →
      scanGen n shape pw (pyStripRight u) = true := by
  intro u
  induction u with
  | nil => intro pw h; exact h
  | cons c rest ih =>
    intro pw h
    simp only [scanGen, Bool.or_eq_true, Bool.and_eq_true] at h
    cases hr : pyStripRight rest with
    | nil =>
      exfalso
      have hall : ∀ d ∈ rest, isPySpace d = true := pyStripRight_eq_nil_forall rest hr
      rcases h with ⟨_, hm⟩ | hsc
      · have h2 := matchAtGen_stripRight n shape hs (c :: rest) hm
        have hlen1 : (pyStripRight (c :: rest)).length ≤ 1 := by
          simp only [pyStripRight, hr]
          split_ifs <;> simp
        simp only [matchAtGen, Bool.and_eq_true] at h2
        obtain ⟨hsh, _⟩ := h2
        obtain ⟨hlen, _⟩ := hs _ hsh
        rw [List.length_take] at hlen
        omega
      · have hf := scanGen_all_space n shape (by omega) hs rest hall (isWordChar c)
        rw [hf] at hsc
        exact absurd hsc (by decide)
    | cons x xs =>
      have hps : pyStripRight (c :: rest) = c :: x :: xs := by
        simp only [pyStripRight, hr]
      rw [hps]
      simp only [scanGen, Bool.or_eq_true, Bool.and_eq_true]
      rcases h with ⟨hpw, hm⟩ | hsc
      · left
        refine ⟨hpw, ?_⟩
        have h2 := matchAtGen_stripRight n shape hs (c :: rest) hm
        rw [hps] at h2
        exact h2
      · right
        have h2 := ih (isWordChar c) hsc
        rw [hr] at h2
        simpa only [scanGen, Bool.or_eq_true, Bool.and_eq_true] using h2

/-- A scan hit on the raw document survives whitespace normalization
followed by stripping (the line construction of `extract_fio_from_text`). -/
lemma scanGen_normalize (n : Nat) (shape : List Char → Bool) (hn : 2 ≤ n)
    (hs : ∀ l, shape l = true → l.length = n ∧ ∀ c ∈ l, isPySpace c = false)
    (t : List Char) (h : scanGen n shape false t = true) :
    scanGen n shape false (pyStrip (collapseWs t)) = true := by
  unfold pyStrip collapseWs
  refine scanGen_stripRight n shape hn hs _ _ ?_
  refine scanGen_dropWhile n shape (by omega) hs _ ?_
  exact scanGen_collapse n shape (by omega) hs t false false (fun hx => rfl) h

/-- Digit counting ignores a non-digit head. -/
lemma digitCount_cons_neg (c : Char) (l : List Char) (h : isDigit c = false) :
    digitCount (c :: l) = digitCount l := by
  simp [digitCount, List.filter_cons, h]

/-- Digit counting adds one for a digit head. -/
lemma digitCount_cons_pos (c : Char) (l : List Char) (h : isDigit c = true) :
    digitCount (c :: l) = digitCount l + 1 := by
  simp [digitCount, List.filter_cons, h, Nat.add_comm]

/-- A whitespace character is not a digit. -/
lemma space_not_digit (c : Char) (h : isPySpace c = true) : isDigit c = false := by
  cases hd : isDigit c
  · rfl
  · rw [digit_not_space c hd] at h
    exact absurd h (by decide)

/-- Whitespace collapsing preserves the digit count. -/
lemma digitCount_collapse :
    ∀ (s : List Char) (ps : Bool), digitCount (collapseWsAux ps s) = digitCount s := by
  intro s
  induction s with
  | nil => intro ps; rfl
  | cons c rest ih =>
    intro ps
    by_cases hc : isPySpace c = true
    · have hcd := space_not_digit c hc
      rw [digitCount_cons_neg c rest hcd]
      by_cases hps : ps = true
      · simp only [collapseWsAux, hc, if_true, hps]
        exact ih true
      · have hpsf : ps = false := by simpa using hps
        subst hpsf
        simp only [collapseWsAux, hc, if_true, Bool.false_eq_true, if_false]
        rw [digitCount_cons_neg ' ' _ (by decide)]
        exact ih true
    · have hcf : isPySpace c = false := by simpa using hc
      have hcol : collapseWsAux ps (c :: rest) = c :: collapseWsAux false rest := by
        simp [collapseWsAux, hcf]
      rw [hcol]
      cases hd : isDigit c
      · rw [digitCount_cons_neg c _ hd, digitCount_cons_neg c _ hd]
        exact ih false
      · rw [digitCount_cons_pos c _ hd, digitCount_cons_pos c _ hd]
        rw [ih false]

/-- Dropping leading whitespace preserves the digit count. -/
lemma digitCount_dropWhile :
    ∀ s : List Char, digitCount (s.dropWhile isPySpace) = digitCount s := by
  intro s
  induction s with
  | nil => rfl
  | cons c rest ih =>
    by_cases hc : isPySpace c = true
    · rw [List.dropWhile_cons, hc, if_pos rfl, ih,
        digitCount_cons_neg c rest (space_not_digit c hc)]
    · have hcf : isPySpace c = false := by simpa using hc
      rw [List.dropWhile_cons, hcf]
      simp

/-- An all-whitespace string has no digits. -/
lemma digitCount_all_space :
    ∀ u : List Char, (∀ c ∈ u, isPySpace c = true) → digitCount u = 0 := by
  intro u
  induction u with
  | nil => intro _; rfl
  | cons c rest ih =>
    intro hall
    rw [digitCount_cons_neg c rest (space_not_digit c (hall c (List.mem_cons_self _ _)))]
    exact ih (fun d hd => hall d (List.mem_cons_of_mem _ hd))

/-- The right strip preserves the digit count. -/
lemma digitCount_stripRight :
    ∀ s : List Char, digitCount (pyStripRight s) = digitCount s := by
  intro s
  induction s with
  | nil => rfl
  | cons c rest ih =>
    simp only [pyStripRight]
    cases hr : pyStripRight rest with
    | nil =>
      have hall := pyStripRight_eq_nil_forall rest hr
      have hrest0 : digitCount rest = 0 := digitCount_all_space rest hall
      split_ifs with hc
      · rw [digitCount_cons_neg c rest (space_not_digit c hc), hrest0]
        rfl
      · cases hd : isDigit c
        · rw [digitCount_cons_neg c [] hd, digitCount_cons_neg c rest hd, hrest0]
          rfl
        · rw [digitCount_cons_pos c [] hd, digitCount_cons_pos c rest hd, hrest0]
          rfl
    | cons x xs =>
      have hx : digitCount (x :: xs) = digitCount rest := by
        rw [← hr]
        exact ih
      cases hd : isDigit c
      · rw [digitCount_cons_neg c _ hd, digitCount_cons_neg c rest hd, hx]
      · rw [digitCount_cons_pos c _ hd, digitCount_cons_pos c rest hd, hx]

/-- The digit count of the merged line equals the digit count of the raw
document. -/
lemma digitCount_normalize (t : List Char) :
    digitCount (pyStrip (collapseWs t)) = digitCount t := by
  unfold pyStrip collapseWs
  rw [digitCount_stripRight, digitCount_dropWhile, digitCount_collapse]

/-- Whitespace collapsing emits no newline. -/
lemma collapse_no_nl : ∀ (s : List Char) (ps : Bool), '\n' ∉ collapseWsAux ps s := by
  intro s
  induction s with
  | nil => intro ps h; simp [collapseWsAux] at h
  | cons c rest ih =>
    intro ps h
    by_cases hc : isPySpace c = true
    · simp only [collapseWsAux, hc, if_true] at h
      split_ifs at h
      · exact ih true h
      · rcases List.mem_cons.mp h with h2 | h2
        · exact absurd h2 (by decide)
        · exact ih true h2
    · have hcf : isPySpace c = false := by simpa using hc
      have hcol : collapseWsAux ps (c :: rest) = c :: collapseWsAux false rest := by
        simp [collapseWsAux, hcf]
      rw [hcol] at h
      rcases List.mem_cons.mp h with h2 | h2
      · rw [← h2] at hcf
        exact absurd hcf (by decide)
      · exact ih false h2

/-- Splitting a newline-free string on newlines yields the whole string. -/
lemma splitNl_single : ∀ s : List Char, '\n' ∉ s → splitNl s = [s] := by
  intro s
  induction s with
  | nil => intro _; rfl
  | cons c rest ih =>
    intro h
    have hc : ¬(c = '\n') := fun hce => h (hce ▸ List.mem_cons_self _ _)
    have hr : splitNl rest = [rest] := ih (fun hm => h (List.mem_cons_of_mem _ hm))
    simp only [splitNl, if_neg hc, hr]

/-- The line list of `extract_fio_from_text` is the singleton holding the
stripped collapsed document, or empty. -/
lemma fioLines_eq (t : List Char) :
    fioLines t =
      if pyStrip (collapseWs t) = [] then [] else [pyStrip (collapseWs t)] := by
  unfold fioLines
  have hnl : '\n' ∉ collapseWs t := collapse_no_nl t false
  rw [splitNl_single _ hnl]
  simp only [List.map_cons, List.map_nil, List.filter]
  by_cases hL : pyStrip (collapseWs t) = []
  · simp [hL]
  · simp [hL]

/-- Claim C1, amended consequence used below: the split produces at most
one non-empty line for every document. -/
lemma fioLines_length_le_one (t : List Char) : (fioLines t).length ≤ 1 := by
  rw [fioLines_eq]
  split_ifs <;> simp

/-- A line on which the date/year filter or the digit-count filter fires
contributes no name candidates. -/
lemma fioLineCandidates_skip (idx : Nat) (line : List Char)
    (h : dateYearTest line = true ∨ 10 < digitCount line) :
    fioLineCandidates idx line = [] := by
  unfold fioLineCandidates
  split_ifs with h1 h2 h3 h4 h5 <;> try rfl
  exfalso
  rcases h with hd | hdc
  · exact h3 hd
  · exact h4 hdc

/-- Claim C10: because whitespace normalization merges the whole document
into a single line, any document with more than 10 digit characters, or a
`\b\d{2}\.\d{2}\.\d{4}\b` date match, or a `\b(199|200|201|202)\d\b` bare
year match anywhere, yields no name. -/
theorem C10_merged_line_none (t : List Char) (hne : t ≠ [])
    (h : 10 < digitCount t ∨ scanGen 10 dateShape false t = true ∨
      scanGen 4 yearShape false t = true) :
    extract_fio_from_text t = none := by
  simp only [extract_fio_from_text, if_neg hne]
  rw [fioLines_eq]
  by_cases hL : pyStrip (collapseWs t) = []
  · rw [if_pos hL]
    rfl
  · rw [if_neg hL]
    have hskip : fioLineCandidates 0 (pyStrip (collapseWs t)) = [] := by
      apply fioLineCandidates_skip
      rcases h with hdc | hd | hy
      · right
        rw [digitCount_normalize]
        exact hdc
      · left
        unfold dateYearTest
        rw [scanGen_normalize 10 dateShape (by omega) dateShape_spec t hd]
        rfl
      · left
        unfold dateYearTest
        rw [scanGen_normalize 4 yearShape (by omega) yearShape_spec t hy]
        simp
    simp [List.take, List.enum, List.enumFrom, hskip, pickBest]

/-- Claim C10, witness: a short document with a `01.02.1995` date yields
no name although it contains a name-shaped pair. -/
theorem C10_witness :
    ((pyStr "Petrenko Ivan 01.02.1995" ≠ ([] : List Char)) ∧
      scanGen 10 dateShape false (pyStr "Petrenko Ivan 01.02.1995") = true) ∧
    extract_fio_from_text (pyStr "Petrenko Ivan 01.02.1995") = none :=
  ⟨⟨by decide, by decide⟩,
    C10_merged_line_none (pyStr "Petrenko Ivan 01.02.1995") (by decide)
      (Or.inr (Or.inl (by decide)))⟩

-- ---------- Claim C6, amended: the word-retention walk ----------

/-- Once the accumulator is non-empty, the walk keeps every remaining word
(the two trailing branches of the source loop have identical bodies, so
the capitalized-word test decides nothing). -/
lemma positionWalkAux_of_ne :
    ∀ (ws : List (List Char)) (acc : List (List Char)), acc ≠ [] →
      positionWalkAux acc ws = acc ++ ws := by
  intro ws
  induction ws with
  | nil => intro acc _; simp [positionWalkAux]
  | cons w rest ih =>
    intro acc hacc
    have hd : decide (acc ≠ []) = true := by simpa using hacc
    simp only [positionWalkAux, hd, Bool.true_and, if_true]
    split_ifs <;> (rw [ih _ (by simp)]; simp)

/-- Claim C6, amended: the reconstruction keeps every word containing a
keyword substring and every word after the first keyword-containing word,
and drops every word before the first keyword hit regardless of
capitalization: the walk equals `dropWhile` on "contains no keyword". -/
theorem C6_amended (ws : List (List Char)) :
    positionWalk ws = ws.dropWhile (fun w => !(hasKeywordSub (w.map pyLower))) := by
  unfold positionWalk
  induction ws with
  | nil => rfl
  | cons w rest ih =>
    by_cases h1 : hasKeywordSub (w.map pyLower) = true
    · simp only [positionWalkAux, h1, if_true, List.nil_append]
      rw [positionWalkAux_of_ne rest [w] (by simp)]
      rw [List.dropWhile_cons, h1]
      simp
    · have h1f : hasKeywordSub (w.map pyLower) = false := by simpa using h1
      simp only [positionWalkAux, h1f, Bool.false_eq_true, if_false]
      rw [List.dropWhile_cons, h1f]
      simpa using ih

end CvApp
